import Mathlib

/- Verification of the timeline reconstruction and export pipeline of the
jiankoubo repository (src/processing.py), shallowly embedded in Lean 4.

Timestamps are modelled as exact rationals in place of Python floats.  The
interval arithmetic (the keep-interval computation shared by the FFmpeg path
and the MoviePy fallback path) is stated generically over a linear ordered
field, so the same definitions serve both executable checks over ℚ and the
measure-theoretic statement over ℝ. -/

namespace Jiankoubo

section IntervalReducer

variable {α : Type} [LinearOrderedField α]

/-- Embedding of `self.clips_to_remove.sort(key=lambda c: c.start)` in
`_build_ffmpeg_select_expression` and `_moviepy_export`: a stable sort of the
removal clips by start time.  A clip is modelled by its `(start, end)` pair,
which is the only data the export paths read. -/
def sort_clips (l : List (α × α)) : List (α × α) :=
  l.insertionSort (fun p q => p.1 ≤ q.1)

/-- Embedding of the keep-interval walk in `_build_ffmpeg_select_expression`
(src/processing.py lines 318-327): walk the sorted removal clips keeping a
`last_end` cursor, emit the gap `(last_end, clip.start)` when positive, update
`last_end = max(last_end, clip.end)`, and append the trailing interval
`(last_end, duration)` when `last_end < duration`. -/
def keep_walk (dur : α) : α → List (α × α) → List (α × α)
  | lastEnd, [] => if lastEnd < dur then [(lastEnd, dur)] else []
  | lastEnd, c :: rest =>
      (if lastEnd < c.1 then [(lastEnd, c.1)] else []) ++
        keep_walk dur (max lastEnd c.2) rest

/-- The keep-interval sequence of the primary FFmpeg path: sort the removal
clips by start, then run the walk from `last_end = 0.0`. -/
def keep_times (clips : List (α × α)) (dur : α) : List (α × α) :=
  keep_walk dur 0 (sort_clips clips)

/-- Embedding of the keep-interval walk in `_moviepy_export`
(src/processing.py lines 392-400).  It differs from `keep_walk` in one place:
the cursor is updated by plain assignment `last_end = clip.end` instead of
`last_end = max(last_end, clip.end)`. -/
def moviepy_keep_walk (dur : α) : α → List (α × α) → List (α × α)
  | lastEnd, [] => if lastEnd < dur then [(lastEnd, dur)] else []
  | lastEnd, c :: rest =>
      (if lastEnd < c.1 then [(lastEnd, c.1)] else []) ++
        moviepy_keep_walk dur c.2 rest

/-- The keep-interval sequence (`clips_to_keep_times`) of the MoviePy fallback
path: sort the removal clips by start, then run the fallback walk from 0. -/
def moviepy_keep_times (clips : List (α × α)) (dur : α) : List (α × α) :=
  moviepy_keep_walk dur 0 (sort_clips clips)

end IntervalReducer

section ClipDetector

/-- A word token of the transcript.  The source reads `word.word`,
`word.start` and `word.end`; the last field is renamed `stop` because `end`
is a Lean keyword. -/
structure Word where
  word : String
  start : ℚ
  stop : ℚ
deriving DecidableEq

/-- The clip kind enumeration of src/processing.py. -/
inductive ClipType where
  | FILLER
  | SILENCE
deriving DecidableEq

/-- The `Clip` dataclass of src/processing.py; `end` is renamed `stop`. -/
structure Clip where
  type : ClipType
  start : ℚ
  stop : ℚ
  content : String := ""
deriving DecidableEq

/-- Embedding of Python's `str.strip()` on the whitespace classes Lean's
`Char.isWhitespace` recognises: drop leading and trailing whitespace. -/
def pystrip (s : String) : String :=
  String.mk (((s.toList.dropWhile Char.isWhitespace).reverse.dropWhile
    Char.isWhitespace).reverse)

/-- Embedding of the token loop of `analyze` (src/processing.py lines
119-129): for each word, emit a SILENCE clip when
`word.start - last_word_end > silence_threshold`, emit a FILLER clip when the
stripped text is in the filler-word list, then set
`last_word_end = word.end` (a plain assignment, not a `max`). -/
def analyze_walk (threshold : ℚ) (fillers : List String) :
    ℚ → List Word → List Clip
  | _, [] => []
  | lastWordEnd, w :: ws =>
      (if threshold < w.start - lastWordEnd then
        [⟨ClipType.SILENCE, lastWordEnd, w.start, ""⟩] else []) ++
      (if pystrip w.word ∈ fillers then
        [⟨ClipType.FILLER, w.start, w.stop, pystrip w.word⟩] else []) ++
      analyze_walk threshold fillers w.stop ws

/-- The clip sequence found by one detection run, starting from
`last_word_end = 0.0`. -/
def analyze_clips (threshold : ℚ) (fillers : List String) (ws : List Word) :
    List Clip :=
  analyze_walk threshold fillers 0 ws

/-- The successive values of the `last_word_end` cursor of `analyze`: the
value before the first token, then the value after each token. -/
def cursor_trace : ℚ → List Word → List ℚ
  | lastWordEnd, [] => [lastWordEnd]
  | lastWordEnd, w :: ws => lastWordEnd :: cursor_trace w.stop ws

end ClipDetector

section ProgressEta

/-- Embedding of Python's `int()` on a rational: truncation toward zero. -/
def pyint (q : ℚ) : ℤ :=
  q.num.tdiv q.den

/-- Floor of a rational as an integer (used to model Python's `%`). -/
def pyfloor (q : ℚ) : ℤ :=
  q.num.fdiv q.den

/-- Embedding of Python's `%` on floats: `a - b * floor(a / b)` (the result
takes the sign of the divisor). -/
def pymod (a b : ℚ) : ℚ :=
  a - b * (pyfloor (a / b) : ℚ)

/-- Embedding of `calculate_eta` (src/processing.py lines 153-178).
`startTime` is `self.start_time` (`none` when no run has started), `now` the
current wall clock, `progress` the `current_progress` argument. -/
def calculate_eta (startTime : Option ℚ) (now : ℚ) (progress : ℤ) : String :=
  match startTime with
  | none => "计算中..."
  | some st =>
    if progress ≤ 0 then "计算中..."
    else
      let elapsed := now - st
      if 100 ≤ progress then "即将完成"
      else
        let progressRatio : ℚ := (progress : ℚ) / 100
        if progressRatio ≤ 0 then "计算中..."
        else
          let estimatedTotal := elapsed / progressRatio
          let remaining := estimatedTotal - elapsed
          if remaining < 60 then
            "预计剩余 " ++ toString (pyint remaining) ++ " 秒"
          else if remaining < 3600 then
            "预计剩余 " ++ toString (pyint (remaining / 60)) ++ " 分 " ++
              toString (pyint (pymod remaining 60)) ++ " 秒"
          else
            "预计剩余 " ++ toString (pyint (remaining / 3600)) ++ " 小时 " ++
              toString (pyint (pymod remaining 3600 / 60)) ++ " 分钟"

/-- The formatting clause of the spec: remaining time rendered as whole
seconds under one minute, minutes plus seconds under one hour, otherwise
hours plus minutes (with the code's rendering of each category). -/
def format_remaining_spec (remaining : ℚ) : String :=
  if remaining < 60 then
    "预计剩余 " ++ toString (pyint remaining) ++ " 秒"
  else if remaining < 3600 then
    "预计剩余 " ++ toString (pyint (remaining / 60)) ++ " 分 " ++
      toString (pyint (pymod remaining 60)) ++ " 秒"
  else
    "预计剩余 " ++ toString (pyint (remaining / 3600)) ++ " 小时 " ++
      toString (pyint (pymod remaining 3600 / 60)) ++ " 分钟"

/-- The ETA estimator as the spec states it: computing when no run has
started or percent ≤ 0, finishing when percent ≥ 100, otherwise
`remaining = elapsed / (percent / 100) - elapsed` formatted by category. -/
def calculate_eta_spec (startTime : Option ℚ) (now : ℚ) (progress : ℤ) :
    String :=
  match startTime with
  | none => "计算中..."
  | some st =>
    if progress ≤ 0 then "计算中..."
    else if 100 ≤ progress then "即将完成"
    else format_remaining_spec ((now - st) / ((progress : ℚ) / 100) - (now - st))

end ProgressEta

section FilterExpression

/-- A single-quote character, used when rendering the filter expression. -/
def squote : String :=
  String.singleton (Char.ofNat 39)

/-- One term of the select condition:
`f'between(t,{start},{end})'` (src/processing.py line 335), with the
timestamps rendered by `toString` on ℚ in place of Python float formatting. -/
def between_term (p : ℚ × ℚ) : String :=
  "between(t," ++ toString p.1 ++ "," ++ toString p.2 ++ ")"

/-- The select condition: the between terms joined by `+`
(src/processing.py line 337). -/
def select_condition (keep : List (ℚ × ℚ)) : String :=
  String.intercalate "+" (keep.map between_term)

/-- The video half of the filter graph (src/processing.py line 341), given
the select condition to embed. -/
def video_chain (cond : String) : String :=
  "[0:v]select=" ++ squote ++ cond ++ squote ++ ",setpts=N/FRAME_RATE/TB[v]"

/-- The audio half of the filter graph (src/processing.py line 342), given
the select condition to embed. -/
def audio_chain (cond : String) : String :=
  "[0:a]aselect=" ++ squote ++ cond ++ squote ++ ",asetpts=N/SR/TB[a]"

/-- The full `filter_complex` string: both halves are rendered from the same
`select_condition` value, exactly as both f-string halves in the source read
the same `select_condition` variable. -/
def filter_complex (keep : List (ℚ × ℚ)) : String :=
  video_chain (select_condition keep) ++ ";" ++ audio_chain (select_condition keep)

/-- Semantics of the generated select condition under the encoder's
documented expression language: `between(x,min,max)` is 1 when
`min ≤ x ≤ max` (inclusive at both endpoints) and 0 otherwise, and a sum of
terms selects a frame exactly when some term is nonzero.  The encoder is an
external collaborator; this is its documented behaviour, not repository
code. -/
def select_sem (keep : List (ℚ × ℚ)) (t : ℚ) : Bool :=
  keep.any (fun p => decide (p.1 ≤ t) && decide (t ≤ p.2))

end FilterExpression

section EncoderSelection

/-- Embedding of Python's `needle in hay` on strings: substring containment. -/
def str_contains (hay needle : String) : Bool :=
  decide (needle.toList <:+: hay.toList)

/-- Embedding of `_check_hardware_acceleration` (src/processing.py lines
351-373): probe the encoder list output; `none` as argument models the probe
raising (the except branch returns None).  The checks are substring tests on
the probe output, in the order nvenc, amf, qsv. -/
def check_hardware_acceleration (encodersOut : Option String) : Option String :=
  match encodersOut with
  | none => none
  | some encoders =>
    if str_contains encoders "h264_nvenc" then some "h264_nvenc"
    else if str_contains encoders "h264_amf" then some "h264_amf"
    else if str_contains encoders "h264_qsv" then some "h264_qsv"
    else none

/-- The video codec `_try_ffmpeg_export` ends up passing to the encoder: the
base command uses `libx264`, and is replaced by the hardware encoder exactly
when `_check_hardware_acceleration` returned one. -/
def selected_video_codec (encodersOut : Option String) : String :=
  match check_hardware_acceleration encodersOut with
  | some hw => hw
  | none => "libx264"

/-- The spec's wording of encoder selection, for comparison: pick the first
available encoder in the priority order nvenc, amf, qsv; if none is
available, select software encoding. -/
def encoder_choice_spec (avail : String → Bool) : String :=
  match ["h264_nvenc", "h264_amf", "h264_qsv"].filter avail with
  | [] => "libx264"
  | hw :: _ => hw

end EncoderSelection

section ExportRun

/-- The environment of one export run: the outcomes of every external
interaction the run performs, so that the run itself is a pure function of
this record.  `exprRaises` models an exception inside
`_build_ffmpeg_select_expression` (its own except branch returns None);
`popenRaises` models an exception launching or waiting on the encoder
process (for example a missing binary); `mpOpenRaises` models an exception
opening the video in the fallback; `mpWriteOk` tells whether the fallback's
final write succeeds. -/
structure ExportEnv where
  probeOk : Bool
  duration : ℚ
  clips : List (ℚ × ℚ)
  exprRaises : Bool
  popenRaises : Bool
  exitZero : Bool
  mpOpenRaises : Bool
  mpDuration : ℚ
  mpWriteOk : Bool
deriving DecidableEq

/-- Embedding of `_build_ffmpeg_select_expression` (src/processing.py lines
299-349): `none` when an exception is raised, when ffprobe exits nonzero, or
when the keep-interval list is empty; otherwise the rendered filter string. -/
def build_ffmpeg_select_expression (env : ExportEnv) : Option String :=
  if env.exprRaises then none
  else if env.probeOk = false then none
  else
    let keep := keep_times env.clips env.duration
    if keep.isEmpty then none else some (filter_complex keep)

/-- The body of `_try_ffmpeg_export` without its outer `except` clause, as an
`Except` computation: building the expression never raises (it catches its
own exceptions); a `none` expression is an ordinary `False` return; launching
the process can raise; otherwise the result is the exit-code test. -/
def try_ffmpeg_body (env : ExportEnv) : Except Unit Bool :=
  match build_ffmpeg_select_expression env with
  | none => Except.ok false
  | some _ => if env.popenRaises then Except.error () else Except.ok env.exitZero

/-- `_try_ffmpeg_export` itself (src/processing.py lines 205-297): the outer
`except Exception` converts any raised exception into a `False` return. -/
def try_ffmpeg_export (env : ExportEnv) : Bool :=
  match try_ffmpeg_body env with
  | Except.ok b => b
  | Except.error _ => false

/-- The observable events of a run: progress emissions (percent and label),
status messages, the export-finished signal, and error emissions. -/
inductive Event where
  | progress (percent : ℕ) (label : String)
  | statusMsg (text : String)
  | finishedExport
  | errorMsg (text : String)
deriving DecidableEq

/-- The error text `_moviepy_export` emits when its keep list is empty. -/
def no_keep_msg : String := "没有可保留的视频片段，请检查您的选择。"

/-- The status text `export` emits before entering the fallback path. -/
def fallback_msg : String := "FFmpeg处理失败，使用备用方法..."

/-- The error label `export` emits when the fallback raises (the Python
message carries the exception text after this label). -/
def export_fail_msg : String := "导出视频失败"

/-- The events emitted inside `_try_ffmpeg_export`: nothing when the
expression fails to build, otherwise the 20 percent emission, then the
90 percent emission exactly on a zero exit code.  The optional
hardware-acceleration status message is omitted (it carries no percent). -/
def primary_events (env : ExportEnv) : List Event :=
  match build_ffmpeg_select_expression env with
  | none => []
  | some _ =>
    Event.progress 20 "正在使用FFmpeg处理视频..." ::
      (if env.popenRaises then []
       else if env.exitZero then [Event.progress 90 "FFmpeg处理完成！"]
       else [])

/-- The events of `_moviepy_export` (src/processing.py lines 375-455): an
error when opening raises; the no-keep error when its keep list is empty;
otherwise 30 percent, one emission per keep interval at
`int(30 + (i / total) * 60)`, 95 percent, and 100 percent on a successful
write (a failed write raises into `export`'s handler). -/
def moviepy_events (env : ExportEnv) : List Event :=
  if env.mpOpenRaises then [Event.errorMsg export_fail_msg]
  else
    let keeps := moviepy_keep_times env.clips env.mpDuration
    if keeps.isEmpty then [Event.errorMsg no_keep_msg]
    else
      let m := keeps.length
      Event.progress 30 "正在优化视频处理流程..." ::
        ((List.range m).map (fun i =>
            Event.progress (30 + 60 * i / m)
              ("正在处理片段 " ++ toString (i + 1) ++ "/" ++ toString m ++ "...")) ++
          (Event.progress 95 "正在拼接视频..." ::
            (if env.mpWriteOk then [Event.progress 100 "导出完成！"]
             else [Event.errorMsg export_fail_msg])))

/-- The full event trace of one `export` run (src/processing.py lines
180-203): 5 percent, the primary attempt's events, then on success the
100 percent emission and the finished signal, and on failure the fallback
status message followed by the fallback's events. -/
def export_trace (env : ExportEnv) : List Event :=
  Event.progress 5 "正在准备剪辑..." ::
    (primary_events env ++
      (if try_ffmpeg_export env then
        [Event.progress 100 "导出完成！", Event.finishedExport]
       else Event.statusMsg fallback_msg :: moviepy_events env))

/-- The percent values of a trace, in emission order. -/
def percents (tr : List Event) : List ℕ :=
  tr.filterMap (fun e =>
    match e with
    | Event.progress p _ => some p
    | _ => none)

/-- Whether a run's trace shows the fallback path being entered. -/
def fallback_attempted (tr : List Event) : Bool :=
  decide (Event.statusMsg fallback_msg ∈ tr)

/-- The percent values emitted by one `analyze` run over `n` transcript
segments (src/processing.py lines 82-134): 10, 30, then
`30 + int(40 * (k / n))` for the k-th segment, then 100.  Labels are omitted;
only the percents matter to the ordering property. -/
def analyze_progress (n : ℕ) : List ℕ :=
  10 :: 30 :: (((List.range n).map (fun k => 30 + 40 * (k + 1) / n)) ++ [100])

end ExportRun

end Jiankoubo

namespace Proofs

open Jiankoubo

section RatComputation

attribute [local semireducible] Rat.sub Rat.add Rat.mul Rat.inv

/-- Claim C2 names the equality of the two keep-interval computations; the
code violates it.  For the removal clips `[(1,5), (2,3)]` (the second nested
inside the first) and duration 10, the primary FFmpeg walk keeps
`[(0,1), (5,10)]` while the MoviePy fallback walk, whose cursor update drops
the `max`, keeps `[(0,1), (3,10)]` — re-including the removed range
`[3,5)`. -/
theorem moviepy_keep_times_diverges :
    keep_times [((1:ℚ),5),(2,3)] 10 = [(0,1),(5,10)] ∧
      moviepy_keep_times [((1:ℚ),5),(2,3)] 10 = [(0,1),(3,10)] := by
  exact ⟨by decide, by decide⟩

/-- The C4 counterexample: the `last_word_end` cursor of `analyze` is
updated by plain assignment, so a late-arriving earlier token shrinks it:
on the tokens `("a",0,5), ("b",0,1)` the cursor values are `0, 5, 1`, which
is not monotone. -/
theorem cursor_trace_not_monotone :
    cursor_trace 0 [⟨"a",0,5⟩, ⟨"b",0,1⟩] = [0, 5, 1] ∧
      ¬ List.Chain' (· ≤ ·) (cursor_trace 0 [⟨"a",0,5⟩, ⟨"b",0,1⟩]) := by
  refine ⟨by decide, fun h => ?_⟩
  rw [show cursor_trace 0 [⟨"a",0,5⟩, ⟨"b",0,1⟩] = [0, 5, 1] from by decide] at h
  have h51 := (List.chain'_cons.mp (List.chain'_cons.mp h).2).1
  norm_num at h51

end RatComputation

/-- Every SILENCE clip emitted by the analyze walk has duration strictly
greater than the threshold, hence positive start-to-stop extent whenever the
threshold is nonnegative. -/
theorem analyze_walk_silence_pos (threshold : ℚ) (fillers : List String)
    (hτ : 0 ≤ threshold) :
    ∀ le ws, ∀ c ∈ analyze_walk threshold fillers le ws,
      c.type = ClipType.SILENCE → c.start < c.stop := by
  intro le ws
  induction ws generalizing le with
  | nil => intro c hc; simp [analyze_walk] at hc
  | cons w ws ih =>
    intro c hc hty
    simp only [analyze_walk, List.mem_append] at hc
    rcases hc with (hc | hc) | hc
    · by_cases hsil : threshold < w.start - le
      · simp [hsil] at hc
        subst hc
        have : (0:ℚ) < w.start - le := lt_of_le_of_lt hτ hsil
        simpa using by linarith
      · simp [hsil] at hc
    · by_cases hfil : pystrip w.word ∈ fillers
      · simp [hfil] at hc
        subst hc
        simp at hty
      · simp [hfil] at hc
    · exact ih w.stop c hc hty

/-- Claim C4 amended: the cursor is updated by plain assignment
`last_word_end = word.end` (not by `max`), so it can decrease when segments
arrive out of global time order (see `cursor_trace_not_monotone`); but every
emitted SILENCE clip still has duration above the threshold, so for a
nonnegative threshold its end is strictly greater than its start. -/
theorem silence_clips_have_positive_duration (threshold : ℚ)
    (fillers : List String) (ws : List Word) (hτ : 0 ≤ threshold) :
    ∀ c ∈ analyze_clips threshold fillers ws,
      c.type = ClipType.SILENCE → c.start < c.stop :=
  analyze_walk_silence_pos threshold fillers hτ 0 ws

section RatWitness1

attribute [local semireducible] Rat.sub Rat.add Rat.mul Rat.inv

/-- Witness for `silence_clips_have_positive_duration` at a concrete input
that really emits a SILENCE clip. -/
theorem silence_clips_have_positive_duration_witness :
    (0:ℚ) ≤ 1 ∧
      (Clip.mk ClipType.SILENCE 0 2 "") ∈ analyze_clips 1 [] [⟨"a", 2, 3⟩] ∧
      (Clip.mk ClipType.SILENCE 0 2 "").start < (Clip.mk ClipType.SILENCE 0 2 "").stop :=
  ⟨by norm_num,
   by decide,
   silence_clips_have_positive_duration 1 [] [⟨"a", 2, 3⟩] (by norm_num)
     (Clip.mk ClipType.SILENCE 0 2 "") (by decide) (by decide)⟩

end RatWitness1

/-- When no token opens a gap above the threshold against the running cursor
and no stripped token text is a filler word, the analyze walk emits
nothing, from any starting cursor. -/
theorem analyze_walk_empty (threshold : ℚ) (fillers : List String) :
    ∀ le ws,
      (∀ p ∈ ws.zip (cursor_trace le ws), p.1.start - p.2 ≤ threshold) →
      (∀ w ∈ ws, pystrip w.word ∉ fillers) →
      analyze_walk threshold fillers le ws = [] := by
  intro le ws
  induction ws generalizing le with
  | nil => intro _ _; rfl
  | cons w ws ih =>
    intro hgap hfill
    have hzip : (w :: ws).zip (cursor_trace le (w :: ws)) =
        (w, le) :: ws.zip (cursor_trace w.stop ws) := rfl
    have hw : w.start - le ≤ threshold := by
      have := hgap (w, le) (by rw [hzip]; exact List.mem_cons_self _ _)
      exact this
    have hsil : ¬ threshold < w.start - le := not_lt.mpr hw
    have hfw : pystrip w.word ∉ fillers := hfill w (List.mem_cons_self _ _)
    simp only [analyze_walk, hsil, if_false, hfw, if_false, List.nil_append]
    exact ih w.stop
      (fun p hp => hgap p (by rw [hzip]; exact List.mem_cons_of_mem _ hp))
      (fun x hx => hfill x (List.mem_cons_of_mem _ hx))

/-- Claim C6: for every token sequence in which no token's start exceeds the
running `last_word_end` cursor by more than the silence threshold and no
stripped token text is in the filler-word list, the clip detector returns an
empty clip sequence (in particular for the empty token sequence). -/
theorem analyze_clips_empty_of_no_triggers (threshold : ℚ)
    (fillers : List String) (ws : List Word)
    (hgap : ∀ p ∈ ws.zip (cursor_trace 0 ws), p.1.start - p.2 ≤ threshold)
    (hfill : ∀ w ∈ ws, pystrip w.word ∉ fillers) :
    analyze_clips threshold fillers ws = [] :=
  analyze_walk_empty threshold fillers 0 ws hgap hfill

section RatWitness2

attribute [local semireducible] Rat.sub Rat.add Rat.mul Rat.inv

/-- Witness for `analyze_clips_empty_of_no_triggers` on a two-token
transcript with small gaps and a disjoint filler list. -/
theorem analyze_clips_empty_of_no_triggers_witness :
    analyze_clips (1/2) ["嗯"] [⟨"a", 0, 1⟩, ⟨"b", 6/5, 2⟩] = [] :=
  analyze_clips_empty_of_no_triggers (1/2) ["嗯"] [⟨"a", 0, 1⟩, ⟨"b", 6/5, 2⟩]
    (by decide) (by decide)

end RatWitness2

/-- Claim C7: the ETA estimator returns the computing label when no run has
started or percent ≤ 0, the finishing label when percent ≥ 100, and
otherwise formats `elapsed / (percent/100) - elapsed` as whole seconds under
one minute, minutes plus seconds under one hour, else hours plus minutes —
that is, `calculate_eta` agrees with the estimator stated by the spec. -/
theorem calculate_eta_matches_spec (startTime : Option ℚ) (now : ℚ)
    (progress : ℤ) :
    calculate_eta startTime now progress =
      calculate_eta_spec startTime now progress := by
  cases startTime with
  | none => rfl
  | some st =>
    by_cases h0 : progress ≤ 0
    · simp [calculate_eta, calculate_eta_spec, h0]
    · by_cases h100 : 100 ≤ progress
      · simp [calculate_eta, calculate_eta_spec, h0, h100]
      · have hp : (0:ℤ) < progress := lt_of_not_le h0
        have hratio : (0:ℚ) < (progress : ℚ) / 100 := by
          have : (0:ℚ) < (progress : ℚ) := by exact_mod_cast hp
          positivity
        have hz : ¬ ((progress : ℚ) / 100 ≤ 0) := not_le.mpr hratio
        simp [calculate_eta, calculate_eta_spec, h0, h100, hz,
          format_remaining_spec]

section RatWitness3

attribute [local semireducible] Rat.sub Rat.add Rat.mul Rat.inv

/-- The C5 counterexample: the claim says the per-interval predicate accepts
exactly `start ≤ t < end`.  For the removal clip `(2,3)` with duration 4, the
keep intervals are `[(0,2),(3,4)]`; at the boundary `t = 2` the generated
condition (a sum of inclusive `between` terms) selects the frame, while the
claimed inclusive-exclusive predicate rejects it. -/
theorem select_sem_boundary_cex :
    select_sem (keep_times [((2:ℚ),3)] 4) 2 = true ∧
      ¬ (∃ p ∈ keep_times [((2:ℚ),3)] 4, p.1 ≤ 2 ∧ (2:ℚ) < p.2) := by
  exact ⟨by decide, by decide⟩

end RatWitness3

/-- Claim C5 amended: the synthesized condition is the `+`-disjunction over
all keep intervals of `between(t,start,end)` terms, and the identical
condition string is embedded in both the video `select` and the audio
`aselect` chains; under the encoder's documented `between` semantics it
accepts exactly the times `t` with `start ≤ t ≤ end` for some keep interval
(inclusive at both endpoints, not exclusive at the end). -/
theorem filter_expression_shape (keep : List (ℚ × ℚ)) (hne : keep ≠ [])
    (t : ℚ) :
    select_condition keep = String.intercalate "+" (keep.map between_term) ∧
      filter_complex keep =
        video_chain (select_condition keep) ++ ";" ++
          audio_chain (select_condition keep) ∧
      (select_sem keep t = true ↔ ∃ p ∈ keep, p.1 ≤ t ∧ t ≤ p.2) := by
  refine ⟨rfl, rfl, ?_⟩
  simp [select_sem, List.any_eq_true]

/-- Witness for `filter_expression_shape` on the keep list `[(0,2)]` at
`t = 1`. -/
theorem filter_expression_shape_witness :
    ([((0:ℚ),2)] ≠ []) ∧
      (select_sem [((0:ℚ),2)] 1 = true ↔
        ∃ p ∈ [((0:ℚ),2)], p.1 ≤ 1 ∧ (1:ℚ) ≤ p.2) :=
  ⟨by decide, (filter_expression_shape [((0:ℚ),2)] (by decide) 1).2.2⟩

/-- Claim C8: encoder selection probes the encoder list and picks in strict
priority order nvenc, then amf, then qsv, falling back to software x264 when
no hardware encoder is available (also when the probe itself raises):
`selected_video_codec` agrees with the spec's priority chooser. -/
theorem encoder_selection_priority :
    (∀ out : String,
        selected_video_codec (some out) =
          encoder_choice_spec (str_contains out)) ∧
      selected_video_codec none = "libx264" := by
  refine ⟨fun out => ?_, rfl⟩
  by_cases h1 : str_contains out "h264_nvenc" <;>
    by_cases h2 : str_contains out "h264_amf" <;>
      by_cases h3 : str_contains out "h264_qsv" <;>
        simp [selected_video_codec, check_hardware_acceleration,
          encoder_choice_spec, h1, h2, h3]

/-- Whenever the primary attempt reports failure, the run's trace shows the
fallback being entered (the status message is emitted and `_moviepy_export`
runs). -/
theorem fallback_attempted_of_primary_false (env : ExportEnv)
    (h : try_ffmpeg_export env = false) :
    fallback_attempted (export_trace env) = true := by
  unfold fallback_attempted export_trace
  rw [h]
  exact decide_eq_true
    (List.mem_cons_of_mem _ (List.mem_append_right _ (List.mem_cons_self _ _)))

/-- The events emitted inside the primary attempt are progress emissions
only; it emits no error event. -/
theorem primary_events_no_error (env : ExportEnv) :
    ∀ msg, Event.errorMsg msg ∉ primary_events env := by
  intro msg hmem
  unfold primary_events at hmem
  cases hb : build_ffmpeg_select_expression env with
  | none => rw [hb] at hmem; simp at hmem
  | some s =>
    rw [hb] at hmem
    simp only [List.mem_cons] at hmem
    rcases hmem with h | h
    · exact Event.noConfusion h
    · split at h <;> simp at h

/-- Every error event of the fallback is either the no-keep-intervals error
or the export-failure error. -/
theorem moviepy_events_error_classified (env : ExportEnv) :
    ∀ msg, Event.errorMsg msg ∈ moviepy_events env →
      msg = no_keep_msg ∨ msg = export_fail_msg := by
  intro msg hmem
  by_cases hmp : env.mpOpenRaises = true
  · simp [moviepy_events, hmp] at hmem
    exact Or.inr hmem
  · by_cases hk : (moviepy_keep_times env.clips env.mpDuration).isEmpty = true
    · simp [moviepy_events, hmp, hk] at hmem
      exact Or.inl hmem
    · by_cases hw : env.mpWriteOk = true
      · simp [moviepy_events, hmp, hk, hw] at hmem
      · simp [moviepy_events, hmp, hk, hw] at hmem
        exact Or.inr hmem

/-- The C3 counterexample: for the single removal clip `(0,6)` on a
six-second video the primary keep-interval computation is empty, yet the run
does enter the fallback path (the fallback status message is emitted and
`_moviepy_export` is invoked), contradicting "without attempting the
fallback path". -/
theorem empty_keep_enters_fallback_cex :
    keep_times [((0:ℚ),6)] 6 = [] ∧
      fallback_attempted
        (export_trace ⟨true, 6, [((0:ℚ),6)], false, false, true, false, 6, true⟩) =
        true := by
  exact ⟨by decide, by decide⟩

/-- Claim C3 amended: an empty primary keep-interval computation makes the
primary attempt fail, after which the fallback path is entered like for
every other primary failure; the fallback recomputes its own keep intervals
and, when these are also empty (as for a single clip equal to `[0, D]`), it
emits the no-keep-intervals error as the run's final event without extracting
anything. -/
theorem export_empty_keep_behavior (env : ExportEnv) :
    (keep_times env.clips env.duration = [] → try_ffmpeg_export env = false) ∧
      (try_ffmpeg_export env = false →
        fallback_attempted (export_trace env) = true) ∧
      (try_ffmpeg_export env = false → env.mpOpenRaises = false →
        moviepy_keep_times env.clips env.mpDuration = [] →
        moviepy_events env = [Event.errorMsg no_keep_msg] ∧
        export_trace env =
          (Event.progress 5 "正在准备剪辑..." :: primary_events env ++
            [Event.statusMsg fallback_msg]) ++ [Event.errorMsg no_keep_msg]) := by
  refine ⟨fun hk => ?_, fun h => fallback_attempted_of_primary_false env h,
    fun h hmp hk2 => ?_⟩
  · cases he : env.exprRaises
    · cases hp : env.probeOk <;>
        simp [try_ffmpeg_export, try_ffmpeg_body,
          build_ffmpeg_select_expression, hk, he, hp]
    · simp [try_ffmpeg_export, try_ffmpeg_body,
        build_ffmpeg_select_expression, hk, he]
  · have hmpe : moviepy_events env = [Event.errorMsg no_keep_msg] := by
      simp [moviepy_events, hmp, hk2]
    refine ⟨hmpe, ?_⟩
    simp [export_trace, h, hmpe]

/-- Witness for `export_empty_keep_behavior`: the single clip `(0,6)` on a
six-second video, all external calls healthy. -/
theorem export_empty_keep_behavior_witness :
    try_ffmpeg_export ⟨true, 6, [((0:ℚ),6)], false, false, true, false, 6, true⟩ = false ∧
      moviepy_events ⟨true, 6, [((0:ℚ),6)], false, false, true, false, 6, true⟩ =
        [Event.errorMsg no_keep_msg] := by
  have h := export_empty_keep_behavior
    ⟨true, 6, [((0:ℚ),6)], false, false, true, false, 6, true⟩
  have h1 := h.1 (by decide)
  exact ⟨h1, (h.2.2 h1 (by decide) (by decide)).1⟩

/-- Claim C10: `_try_ffmpeg_export` is total — its outer handler converts a
raising body into a `False` return and otherwise forwards the body's boolean
— and a failed primary attempt always leads into the fallback; the run's
error events never come from the primary attempt (they are all fallback
errors). -/
theorem try_ffmpeg_export_total (env : ExportEnv) :
    (∀ e, try_ffmpeg_body env = Except.error e → try_ffmpeg_export env = false) ∧
      (∀ b, try_ffmpeg_body env = Except.ok b → try_ffmpeg_export env = b) ∧
      (try_ffmpeg_export env = false →
        fallback_attempted (export_trace env) = true ∧
        ∀ msg, Event.errorMsg msg ∈ export_trace env →
          msg = no_keep_msg ∨ msg = export_fail_msg) := by
  refine ⟨fun e he => ?_, fun b hb => ?_, fun h => ?_⟩
  · unfold try_ffmpeg_export
    rw [he]
  · unfold try_ffmpeg_export
    rw [hb]
  · refine ⟨fallback_attempted_of_primary_false env h, fun msg hmem => ?_⟩
    simp only [export_trace, h, Bool.false_eq_true, if_false, List.mem_cons,
      List.mem_append] at hmem
    rcases hmem with h1 | h1 | h1 | h1
    · exact Event.noConfusion h1
    · exact absurd h1 (primary_events_no_error env msg)
    · exact Event.noConfusion h1
    · exact moviepy_events_error_classified env msg h1

/-- Witness for `try_ffmpeg_export_total`: an environment whose encoder
launch raises (for example a missing binary); the body errors, the caught
result is `False`, and the fallback is entered. -/
theorem try_ffmpeg_export_total_witness :
    try_ffmpeg_export ⟨true, 6, [((1:ℚ),2)], false, true, true, false, 6, true⟩ = false ∧
      fallback_attempted
        (export_trace ⟨true, 6, [((1:ℚ),2)], false, true, true, false, 6, true⟩) =
        true := by
  have h := try_ffmpeg_export_total
    ⟨true, 6, [((1:ℚ),2)], false, true, true, false, 6, true⟩
  have h1 := h.1 () (by rfl)
  exact ⟨h1, (h.2.2 h1).1⟩



/-- A map of a monotone function over `range` is pairwise nondecreasing. -/
theorem pairwise_le_map_range (f : ℕ → ℕ) (hf : ∀ a b, a ≤ b → f a ≤ f b)
    (n : ℕ) : List.Pairwise (· ≤ ·) ((List.range n).map f) :=
  List.pairwise_map.mpr ((List.pairwise_lt_range n).imp
    (fun hab => hf _ _ (le_of_lt hab)))

/-- Percents of a trace starting with a progress event. -/
theorem percents_cons_progress (p : ℕ) (lab : String) (tr : List Event) :
    percents (Event.progress p lab :: tr) = p :: percents tr := rfl

/-- Percents of a concatenated trace. -/
theorem percents_append (l₁ l₂ : List Event) :
    percents (l₁ ++ l₂) = percents l₁ ++ percents l₂ :=
  List.filterMap_append l₁ l₂ _

/-- Extracting the percents of a list of progress events recovers the
mapped percent values. -/
theorem percents_map_progress (f : ℕ → ℕ) (lab : ℕ → String) (l : List ℕ) :
    percents (l.map (fun i => Event.progress (f i) (lab i))) = l.map f := by
  induction l with
  | nil => rfl
  | cons a l ih => simpa [percents] using ih

/-- The percent values of the fallback path are pairwise nondecreasing and
lie between 30 and 100. -/
theorem percents_moviepy (env : ExportEnv) :
    List.Pairwise (· ≤ ·) (percents (moviepy_events env)) ∧
      ∀ x ∈ percents (moviepy_events env), 30 ≤ x ∧ x ≤ 100 := by
  by_cases hmp : env.mpOpenRaises = true
  · simp [moviepy_events, hmp, percents]
  · by_cases hk : (moviepy_keep_times env.clips env.mpDuration).isEmpty = true
    · simp [moviepy_events, hmp, hk, percents]
    · set m := (moviepy_keep_times env.clips env.mpDuration).length with hm
      have hmono : ∀ a b : ℕ, a ≤ b → 30 + 60 * a / m ≤ 30 + 60 * b / m :=
        fun a b hab =>
          Nat.add_le_add_left (Nat.div_le_div_right (Nat.mul_le_mul_left 60 hab)) 30
      have hub : ∀ i : ℕ, i < m → 30 + 60 * i / m ≤ 90 := by
        intro i hi
        have h1 : 60 * i / m ≤ 60 := by
          calc 60 * i / m ≤ 60 * m / m :=
                Nat.div_le_div_right (Nat.mul_le_mul_left 60 (le_of_lt hi))
            _ = 60 := Nat.mul_div_cancel 60 (lt_of_le_of_lt (Nat.zero_le i) hi)
        omega
      have hmem : ∀ x ∈ (List.range m).map (fun i => 30 + 60 * i / m),
          30 ≤ x ∧ x ≤ 90 := by
        intro x hx
        rcases List.mem_map.mp hx with ⟨i, hi, rfl⟩
        exact ⟨Nat.le_add_right 30 _, hub i (List.mem_range.mp hi)⟩
      have hpair := pairwise_le_map_range (fun i => 30 + 60 * i / m) hmono m
      have hassemble : ∀ t : List ℕ, List.Pairwise (· ≤ ·) t →
          (∀ y ∈ t, 95 ≤ y ∧ y ≤ 100) →
          List.Pairwise (· ≤ ·)
              (30 :: ((List.range m).map (fun i => 30 + 60 * i / m) ++ 95 :: t)) ∧
            ∀ x ∈ 30 :: ((List.range m).map (fun i => 30 + 60 * i / m) ++ 95 :: t),
              30 ≤ x ∧ x ≤ 100 := by
        intro t ht hty
        constructor
        · refine List.pairwise_cons.mpr ⟨?_, List.pairwise_append.mpr
            ⟨hpair, List.pairwise_cons.mpr ⟨fun y hy => (hty y hy).1, ht⟩, ?_⟩⟩
          · intro x hx
            rcases List.mem_append.mp hx with h | h
            · exact (hmem x h).1
            · rcases List.mem_cons.mp h with rfl | h
              · omega
              · exact le_trans (by omega) (hty x h).1
          · intro a ha b hb
            rcases List.mem_cons.mp hb with rfl | hb
            · exact le_trans (hmem a ha).2 (by omega)
            · exact le_trans (hmem a ha).2 (le_trans (by omega) (hty b hb).1)
        · intro x hx
          rcases List.mem_cons.mp hx with rfl | hx
          · omega
          · rcases List.mem_append.mp hx with h | h
            · exact ⟨(hmem x h).1, le_trans (hmem x h).2 (by omega)⟩
            · rcases List.mem_cons.mp h with rfl | h
              · omega
              · exact ⟨le_trans (by omega) (hty x h).1, (hty x h).2⟩
      by_cases hw : env.mpWriteOk = true
      · have h1 : moviepy_events env =
            Event.progress 30 "正在优化视频处理流程..." ::
              ((List.range m).map (fun i =>
                  Event.progress (30 + 60 * i / m)
                    ("正在处理片段 " ++ toString (i + 1) ++ "/" ++ toString m ++ "...")) ++
                (Event.progress 95 "正在拼接视频..." ::
                  [Event.progress 100 "导出完成！"])) := by
          simp [moviepy_events, hmp, hk, hw]
        have hpm : percents (moviepy_events env) =
            30 :: ((List.range m).map (fun i => 30 + 60 * i / m) ++ 95 :: [100]) := by
          rw [h1, percents_cons_progress, percents_append,
            percents_map_progress (fun i => 30 + 60 * i / m), percents_cons_progress,
            percents_cons_progress]
          rfl
        rw [hpm]
        exact hassemble [100] (by decide) (by intro y hy; rcases List.mem_singleton.mp hy with rfl; omega)
      · have h1 : moviepy_events env =
            Event.progress 30 "正在优化视频处理流程..." ::
              ((List.range m).map (fun i =>
                  Event.progress (30 + 60 * i / m)
                    ("正在处理片段 " ++ toString (i + 1) ++ "/" ++ toString m ++ "...")) ++
                (Event.progress 95 "正在拼接视频..." ::
                  [Event.errorMsg export_fail_msg])) := by
          simp [moviepy_events, hmp, hk, hw]
        have hpm : percents (moviepy_events env) =
            30 :: ((List.range m).map (fun i => 30 + 60 * i / m) ++ 95 :: []) := by
          rw [h1, percents_cons_progress, percents_append,
            percents_map_progress (fun i => 30 + 60 * i / m), percents_cons_progress]
          rfl
        rw [hpm]
        exact hassemble [] (by decide) (by intro y hy; cases hy)


/-- Percents of a trace starting with a status message. -/
theorem percents_cons_status (s : String) (tr : List Event) :
    percents (Event.statusMsg s :: tr) = percents tr := rfl

/-- When the primary attempt fails, it has emitted no percent or only the
20 percent emission (90 is only emitted on a zero exit code, which would
make the attempt succeed). -/
theorem percents_primary_failed (env : ExportEnv)
    (h : try_ffmpeg_export env = false) :
    percents (primary_events env) = [] ∨ percents (primary_events env) = [20] := by
  unfold try_ffmpeg_export try_ffmpeg_body at h
  unfold primary_events
  cases hb : build_ffmpeg_select_expression env with
  | none => exact Or.inl rfl
  | some s =>
    rw [hb] at h
    right
    by_cases hp : env.popenRaises = true
    · simp [hp, percents]
    · simp only [hp, Bool.false_eq_true, if_false] at h
      simp [hp, h, percents]

/-- When the primary attempt succeeds, it has emitted exactly 20 then 90. -/
theorem percents_primary_ok (env : ExportEnv)
    (h : try_ffmpeg_export env = true) :
    percents (primary_events env) = [20, 90] := by
  unfold try_ffmpeg_export try_ffmpeg_body at h
  cases hb : build_ffmpeg_select_expression env with
  | none => rw [hb] at h; exact absurd h (by simp)
  | some s =>
    rw [hb] at h
    by_cases hp : env.popenRaises = true
    · simp [hp] at h
    · simp only [hp, Bool.false_eq_true, if_false] at h
      simp [primary_events, hb, hp, h, percents]

/-- The percents of one export run are pairwise nondecreasing. -/
theorem percents_export_pairwise (env : ExportEnv) :
    List.Pairwise (· ≤ ·) (percents (export_trace env)) := by
  cases htf : try_ffmpeg_export env with
  | true =>
    have hp := percents_primary_ok env htf
    have : percents (export_trace env) = [5, 20, 90, 100] := by
      rw [export_trace, htf, if_pos rfl, percents_cons_progress, percents_append, hp]
      rfl
    rw [this]
    decide
  | false =>
    have hstep : percents (export_trace env) =
        5 :: (percents (primary_events env) ++ percents (moviepy_events env)) := by
      rw [export_trace, htf]
      simp only [Bool.false_eq_true, if_false]
      rw [percents_cons_progress, percents_append, percents_cons_status]
    have hmv := percents_moviepy env
    rcases percents_primary_failed env htf with hp | hp <;> rw [hstep, hp]
    · refine List.pairwise_cons.mpr ⟨?_, ?_⟩
      · intro x hx
        rw [List.nil_append] at hx
        exact le_trans (by omega) (hmv.2 x hx).1
      · rw [List.nil_append]
        exact hmv.1
    · refine List.pairwise_cons.mpr ⟨?_, List.pairwise_cons.mpr ⟨?_, hmv.1⟩⟩
      · intro x hx
        rcases List.mem_cons.mp (by simpa using hx) with rfl | hx
        · omega
        · exact le_trans (by omega) (hmv.2 x hx).1
      · intro x hx
        exact le_trans (by omega) (hmv.2 x hx).1

/-- The percents of one analyze run are pairwise nondecreasing. -/
theorem analyze_progress_pairwise (n : ℕ) :
    List.Pairwise (· ≤ ·) (analyze_progress n) := by
  unfold analyze_progress
  have hub : ∀ k : ℕ, k < n → 30 + 40 * (k + 1) / n ≤ 70 := by
    intro k hk
    have h1 : 40 * (k + 1) / n ≤ 40 := by
      calc 40 * (k + 1) / n ≤ 40 * n / n :=
            Nat.div_le_div_right (Nat.mul_le_mul_left 40 (by omega))
        _ = 40 := Nat.mul_div_cancel 40 (by omega)
    omega
  have hmem : ∀ x ∈ (List.range n).map (fun k => 30 + 40 * (k + 1) / n),
      30 ≤ x ∧ x ≤ 70 := by
    intro x hx
    rcases List.mem_map.mp hx with ⟨k, hk, rfl⟩
    exact ⟨Nat.le_add_right 30 _, hub k (List.mem_range.mp hk)⟩
  have hpair := pairwise_le_map_range (fun k => 30 + 40 * (k + 1) / n)
    (fun a b hab => Nat.add_le_add_left
      (Nat.div_le_div_right (Nat.mul_le_mul_left 40 (by omega))) 30) n
  refine List.pairwise_cons.mpr ⟨?_, List.pairwise_cons.mpr
    ⟨?_, List.pairwise_append.mpr ⟨hpair, by decide, ?_⟩⟩⟩
  · intro x hx
    rcases List.mem_cons.mp hx with rfl | hx
    · omega
    · rcases List.mem_append.mp hx with h | h
      · exact le_trans (by omega) (hmem x h).1
      · rcases List.mem_singleton.mp h with rfl
        omega
  · intro x hx
    rcases List.mem_append.mp hx with h | h
    · exact (hmem x h).1
    · rcases List.mem_singleton.mp h with rfl
      omega
  · intro a ha b hb
    rcases List.mem_singleton.mp hb with rfl
    exact le_trans (hmem a ha).2 (by omega)

/-- Claim C9: within any single analyze run and any single export run, the
sequence of percent values emitted as progress events is non-decreasing, for
every run environment and every number of transcript segments and keep
intervals. -/
theorem progress_percents_monotone (env : ExportEnv) (n : ℕ) :
    List.Chain' (· ≤ ·) (percents (export_trace env)) ∧
      List.Chain' (· ≤ ·) (analyze_progress n) :=
  ⟨(percents_export_pairwise env).chain', (analyze_progress_pairwise n).chain'⟩


section IntervalLemmas

variable {α : Type} [LinearOrderedField α]

instance pair_fst_le_total : IsTotal (α × α) (fun p q => p.1 ≤ q.1) :=
  ⟨fun a b => le_total a.1 b.1⟩

instance pair_fst_le_trans : IsTrans (α × α) (fun p q => p.1 ≤ q.1) :=
  ⟨fun _ _ _ h h' => le_trans h h'⟩

/-- The sorted clip list is sorted by start time. -/
theorem sort_clips_sorted (l : List (α × α)) :
    List.Pairwise (fun p q : α × α => p.1 ≤ q.1) (sort_clips l) :=
  List.sorted_insertionSort _ l

/-- The sorted clip list is a permutation of the original. -/
theorem sort_clips_perm (l : List (α × α)) : (sort_clips l).Perm l :=
  List.perm_insertionSort _ l

/-- Every interval the walk emits has positive extent. -/
theorem keep_walk_pos (dur : α) (le : α) (l : List (α × α)) :
    ∀ p ∈ keep_walk dur le l, p.1 < p.2 := by
  induction l generalizing le with
  | nil =>
    intro p hp
    by_cases hld : le < dur
    · simp only [keep_walk, hld, if_true, List.mem_singleton] at hp
      subst hp; exact hld
    · simp [keep_walk, hld] at hp
  | cons c rest ih =>
    intro p hp
    rcases List.mem_append.mp hp with h | h
    · by_cases hld : le < c.1
      · simp only [hld, if_true, List.mem_singleton] at h
        subst h; exact hld
      · simp [hld] at h
    · exact ih (max le c.2) p h

/-- Every interval the walk emits starts at or after the cursor. -/
theorem keep_walk_lb (dur : α) (le : α) (l : List (α × α)) :
    ∀ p ∈ keep_walk dur le l, le ≤ p.1 := by
  induction l generalizing le with
  | nil =>
    intro p hp
    by_cases hld : le < dur
    · simp only [keep_walk, hld, if_true, List.mem_singleton] at hp
      subst hp; exact le_refl le
    · simp [keep_walk, hld] at hp
  | cons c rest ih =>
    intro p hp
    rcases List.mem_append.mp hp with h | h
    · by_cases hld : le < c.1
      · simp only [hld, if_true, List.mem_singleton] at h
        subst h; exact le_refl le
      · simp [hld] at h
    · exact le_trans (le_max_left le c.2) (ih (max le c.2) p h)

/-- The emitted intervals are mutually ordered: each ends at or before the
next begins. -/
theorem keep_walk_pairwise (dur : α) (le : α) (l : List (α × α))
    (hse : ∀ c ∈ l, c.1 ≤ c.2)
    (hsort : List.Pairwise (fun p q : α × α => p.1 ≤ q.1) l) :
    List.Pairwise (fun p q : α × α => p.2 ≤ q.1) (keep_walk dur le l) := by
  induction l generalizing le with
  | nil =>
    by_cases hld : le < dur <;> simp [keep_walk, hld]
  | cons c rest ih =>
    have hrest := ih (max le c.2)
      (fun x hx => hse x (List.mem_cons_of_mem _ hx))
      (List.pairwise_cons.mp hsort).2
    show List.Pairwise _ ((if le < c.1 then [(le, c.1)] else []) ++ _)
    by_cases hld : le < c.1
    · rw [if_pos hld, List.singleton_append]
      refine List.pairwise_cons.mpr ⟨fun q hq => ?_, hrest⟩
      exact le_trans
        (le_trans (hse c (List.mem_cons_self _ _)) (le_max_right le c.2))
        (keep_walk_lb dur (max le c.2) rest q hq)
    · rw [if_neg hld, List.nil_append]
      exact hrest

/-- Every emitted interval is disjoint from every removal clip of the
walked list. -/
theorem keep_walk_disjoint (dur : α) (le : α) (l : List (α × α))
    (hse : ∀ c ∈ l, c.1 ≤ c.2)
    (hsort : List.Pairwise (fun p q : α × α => p.1 ≤ q.1) l) :
    ∀ p ∈ keep_walk dur le l, ∀ c ∈ l, p.2 ≤ c.1 ∨ c.2 ≤ p.1 := by
  induction l generalizing le with
  | nil => intro p _ c hc; cases hc
  | cons c rest ih =>
    intro p hp c' hc'
    rcases List.mem_append.mp hp with h | h
    · by_cases hld : le < c.1
      · simp only [hld, if_true, List.mem_singleton] at h
        subst h
        rcases List.mem_cons.mp hc' with rfl | hmem
        · exact Or.inl (le_refl _)
        · exact Or.inl ((List.pairwise_cons.mp hsort).1 c' hmem)
      · simp [hld] at h
    · rcases List.mem_cons.mp hc' with rfl | hmem
      · exact Or.inr (le_trans (le_max_right le c'.2)
          (keep_walk_lb dur (max le c'.2) rest p h))
      · exact ih (max le c.2)
          (fun x hx => hse x (List.mem_cons_of_mem _ hx))
          (List.pairwise_cons.mp hsort).2 p h c' hmem

/-- Pointwise coverage: a time lies in `[cursor, duration)` exactly when
some emitted keep interval or some removal clip (at or after the cursor)
contains it. -/
theorem keep_walk_cover (dur : α) (le : α) (l : List (α × α))
    (hse : ∀ c ∈ l, c.1 ≤ c.2) (hub : ∀ c ∈ l, c.2 ≤ dur) (t : α) :
    (le ≤ t ∧ t < dur) ↔
      ((∃ p ∈ keep_walk dur le l, p.1 ≤ t ∧ t < p.2) ∨
        (∃ c ∈ l, c.1 ≤ t ∧ t < c.2 ∧ le ≤ t)) := by
  induction l generalizing le with
  | nil =>
    constructor
    · rintro ⟨h1, h2⟩
      refine Or.inl ⟨(le, dur), ?_, h1, h2⟩
      simp [keep_walk, lt_of_le_of_lt h1 h2]
    · rintro (⟨p, hp, hp1, hp2⟩ | ⟨c, hc, _⟩)
      · by_cases hld : le < dur
        · simp only [keep_walk, hld, if_true, List.mem_singleton] at hp
          subst hp
          exact ⟨hp1, hp2⟩
        · simp [keep_walk, hld] at hp
      · cases hc
  | cons c rest ih =>
    have hse' := fun x hx => hse x (List.mem_cons_of_mem _ hx)
    have hub' := fun x hx => hub x (List.mem_cons_of_mem _ hx)
    have IH := ih (max le c.2) hse' hub'
    constructor
    · rintro ⟨h1, h2⟩
      by_cases hmax : t < max le c.2
      · have htc2 : t < c.2 := by
          rcases lt_max_iff.mp hmax with h | h
          · exact absurd h (not_lt.mpr h1)
          · exact h
        by_cases hc1 : c.1 ≤ t
        · exact Or.inr ⟨c, List.mem_cons_self _ _, hc1, htc2, h1⟩
        · have hlc : le < c.1 := lt_of_le_of_lt h1 (lt_of_not_le hc1)
          refine Or.inl ⟨(le, c.1), ?_, h1, lt_of_not_le hc1⟩
          refine List.mem_append_left _ ?_
          rw [if_pos hlc]
          exact List.mem_singleton.mpr rfl
      · rcases IH.mp ⟨not_lt.mp hmax, h2⟩ with ⟨p, hp, hpt⟩ | ⟨c', hc', h3, h4, h5⟩
        · exact Or.inl ⟨p, List.mem_append_right _ hp, hpt⟩
        · exact Or.inr ⟨c', List.mem_cons_of_mem _ hc', h3, h4,
            le_trans (le_max_left le c.2) h5⟩
    · rintro (⟨p, hp, hp1, hp2⟩ | ⟨c', hc', h3, h4, h5⟩)
      · rcases List.mem_append.mp hp with hgap | hrec
        · by_cases hld : le < c.1
          · rw [if_pos hld] at hgap
            rcases List.mem_singleton.mp hgap with rfl
            exact ⟨hp1, lt_of_lt_of_le hp2
              (le_trans (hse c (List.mem_cons_self _ _))
                (hub c (List.mem_cons_self _ _)))⟩
          · rw [if_neg hld] at hgap; cases hgap
        · have := IH.mpr (Or.inl ⟨p, hrec, hp1, hp2⟩)
          exact ⟨le_trans (le_max_left le c.2) this.1, this.2⟩
      · rcases List.mem_cons.mp hc' with rfl | hmem
        · exact ⟨h5, lt_of_lt_of_le h4 (hub c' (List.mem_cons_self _ _))⟩
        · exact ⟨h5, lt_of_lt_of_le h4 (hub c' (List.mem_cons_of_mem _ hmem))⟩

end IntervalLemmas


section MeasurePartition

open MeasureTheory

/-- Membership in the union of the half-open intervals of a list. -/
theorem mem_ico_union (l : List (ℝ × ℝ)) (t : ℝ) :
    t ∈ (⋃ c ∈ l, Set.Ico c.1 c.2) ↔ ∃ c ∈ l, c.1 ≤ t ∧ t < c.2 := by
  constructor
  · intro h
    rcases Set.mem_iUnion.mp h with ⟨c, hc⟩
    rcases Set.mem_iUnion.mp hc with ⟨hcl, ht⟩
    exact ⟨c, hcl, Set.mem_Ico.mp ht⟩
  · rintro ⟨c, hcl, h⟩
    exact Set.mem_iUnion.mpr ⟨c, Set.mem_iUnion.mpr ⟨hcl, Set.mem_Ico.mpr h⟩⟩

/-- The union of the intervals of a list is measurable. -/
theorem ico_union_measurable (l : List (ℝ × ℝ)) :
    MeasurableSet (⋃ c ∈ l, Set.Ico c.1 c.2) :=
  MeasurableSet.biUnion l.finite_toSet.countable (fun _ _ => measurableSet_Ico)

/-- Unfolding the union of intervals over a cons cell. -/
theorem ico_union_cons (p : ℝ × ℝ) (l : List (ℝ × ℝ)) :
    (⋃ c ∈ (p :: l), Set.Ico c.1 c.2) =
      Set.Ico p.1 p.2 ∪ ⋃ c ∈ l, Set.Ico c.1 c.2 := by
  ext t
  rw [Set.mem_union, mem_ico_union, mem_ico_union, Set.mem_Ico]
  constructor
  · rintro ⟨c, hc, h⟩
    rcases List.mem_cons.mp hc with rfl | hc
    · exact Or.inl h
    · exact Or.inr ⟨c, hc, h⟩
  · rintro (h | ⟨c, hc, h⟩)
    · exact ⟨p, List.mem_cons_self _ _, h⟩
    · exact ⟨c, List.mem_cons_of_mem _ hc, h⟩

/-- The volume of a union of intervals that are pairwise ordered
end-before-start is the sum of the interval lengths. -/
theorem volume_ico_union_of_pairwise (l : List (ℝ × ℝ))
    (hp : List.Pairwise (fun p q : ℝ × ℝ => p.2 ≤ q.1) l) :
    volume (⋃ c ∈ l, Set.Ico c.1 c.2) =
      (l.map (fun p => ENNReal.ofReal (p.2 - p.1))).sum := by
  induction l with
  | nil => simp
  | cons p l ih =>
    have hdisj : Disjoint (Set.Ico p.1 p.2) (⋃ c ∈ l, Set.Ico c.1 c.2) := by
      rw [Set.disjoint_left]
      intro t ht hmem
      rcases (mem_ico_union l t).mp hmem with ⟨c, hc, h1, _⟩
      have hpc := (List.pairwise_cons.mp hp).1 c hc
      exact absurd (le_trans hpc h1) (not_le.mpr ht.2)
    rw [ico_union_cons, measure_union hdisj (ico_union_measurable l),
      Real.volume_Ico, ih (List.pairwise_cons.mp hp).2, List.map_cons,
      List.sum_cons]

/-- The interval `[0, D)` splits exactly into the keep intervals and the
union of the removal clips. -/
theorem keep_times_cover (clips : List (ℝ × ℝ)) (D : ℝ)
    (hc : ∀ c ∈ clips, 0 ≤ c.1 ∧ c.1 ≤ c.2 ∧ c.2 ≤ D) :
    Set.Ico (0:ℝ) D =
      (⋃ p ∈ keep_times clips D, Set.Ico p.1 p.2) ∪
        ⋃ c ∈ clips, Set.Ico c.1 c.2 := by
  have hperm := sort_clips_perm clips
  have hse : ∀ c ∈ sort_clips clips, c.1 ≤ c.2 :=
    fun c hcm => (hc c (hperm.mem_iff.mp hcm)).2.1
  have hub : ∀ c ∈ sort_clips clips, c.2 ≤ D :=
    fun c hcm => (hc c (hperm.mem_iff.mp hcm)).2.2
  ext t
  rw [Set.mem_union, mem_ico_union, mem_ico_union, Set.mem_Ico]
  show (0 ≤ t ∧ t < D) ↔ _
  constructor
  · intro h
    rcases (keep_walk_cover D 0 (sort_clips clips) hse hub t).mp h with
      h | ⟨c, hc1, h1, h2, _⟩
    · exact Or.inl h
    · exact Or.inr ⟨c, hperm.mem_iff.mp hc1, h1, h2⟩
  · intro h
    rcases h with ⟨p, hpk, h1, h2⟩ | ⟨c, hcm, h1, h2⟩
    · exact (keep_walk_cover D 0 (sort_clips clips) hse hub t).mpr
        (Or.inl ⟨p, hpk, h1, h2⟩)
    · exact (keep_walk_cover D 0 (sort_clips clips) hse hub t).mpr
        (Or.inr ⟨c, hperm.mem_iff.mpr hcm, h1, h2,
          le_trans (hc c hcm).1 h1⟩)

/-- The keep intervals are disjoint from the removal clips, as sets. -/
theorem keep_times_disjoint_clips (clips : List (ℝ × ℝ)) (D : ℝ)
    (hc : ∀ c ∈ clips, 0 ≤ c.1 ∧ c.1 ≤ c.2 ∧ c.2 ≤ D) :
    Disjoint (⋃ p ∈ keep_times clips D, Set.Ico p.1 p.2)
      (⋃ c ∈ clips, Set.Ico c.1 c.2) := by
  have hperm := sort_clips_perm clips
  have hse : ∀ c ∈ sort_clips clips, c.1 ≤ c.2 :=
    fun c hcm => (hc c (hperm.mem_iff.mp hcm)).2.1
  rw [Set.disjoint_left]
  intro t htK htC
  rcases (mem_ico_union _ t).mp htK with ⟨p, hp, hp1, hp2⟩
  rcases (mem_ico_union _ t).mp htC with ⟨c, hcm, hc1, hc2⟩
  rcases keep_walk_disjoint D 0 (sort_clips clips) hse
      (sort_clips_sorted clips) p hp c (hperm.mem_iff.mpr hcm) with h | h
  · exact absurd (le_trans h hc1) (not_le.mpr hp2)
  · exact absurd (le_trans h hp1) (not_le.mpr hc2)

/-- Claim C1: for removal clips all inside `[0, D]`, the keep intervals of
the interval reducer have positive extent, are pairwise non-overlapping and
sorted by start, and the sum of their lengths plus the measure of the union
of the removal clips (overlaps counted once) is exactly the duration `D`. -/
theorem keep_times_partition (clips : List (ℝ × ℝ)) (D : ℝ)
    (hc : ∀ c ∈ clips, 0 ≤ c.1 ∧ c.1 ≤ c.2 ∧ c.2 ≤ D) (hD : 0 ≤ D) :
    (∀ p ∈ keep_times clips D, p.1 < p.2) ∧
      List.Pairwise (fun p q : ℝ × ℝ => p.2 ≤ q.1 ∧ p.1 < q.1)
        (keep_times clips D) ∧
      ((keep_times clips D).map (fun p => ENNReal.ofReal (p.2 - p.1))).sum +
          volume (⋃ c ∈ clips, Set.Ico c.1 c.2) =
        ENNReal.ofReal D := by
  have hperm := sort_clips_perm clips
  have hse : ∀ c ∈ sort_clips clips, c.1 ≤ c.2 :=
    fun c hcm => (hc c (hperm.mem_iff.mp hcm)).2.1
  have hkpos : ∀ p ∈ keep_times clips D, p.1 < p.2 :=
    keep_walk_pos D 0 (sort_clips clips)
  have hkpair : List.Pairwise (fun p q : ℝ × ℝ => p.2 ≤ q.1)
      (keep_times clips D) :=
    keep_walk_pairwise D 0 (sort_clips clips) hse (sort_clips_sorted clips)
  refine ⟨hkpos, ?_, ?_⟩
  · exact hkpair.imp_of_mem (fun ha _ h =>
      ⟨h, lt_of_lt_of_le (hkpos _ ha) h⟩)
  · rw [← volume_ico_union_of_pairwise (keep_times clips D) hkpair,
      ← measure_union (keep_times_disjoint_clips clips D hc)
        (ico_union_measurable clips),
      ← keep_times_cover clips D hc, Real.volume_Ico, sub_zero]

/-- Witness for `keep_times_partition` on the spec's Scenario C: overlapping
removal clips `[(1,3),(2,4)]` with duration 6. -/
theorem keep_times_partition_witness :
    (∀ c ∈ [((1:ℝ),3),(2,4)], 0 ≤ c.1 ∧ c.1 ≤ c.2 ∧ c.2 ≤ 6) ∧ ((0:ℝ) ≤ 6) ∧
      (((keep_times [((1:ℝ),3),(2,4)] 6).map
            (fun p => ENNReal.ofReal (p.2 - p.1))).sum +
          volume (⋃ c ∈ [((1:ℝ),3),(2,4)], Set.Ico c.1 c.2) =
        ENNReal.ofReal 6) := by
  have hc : ∀ c ∈ [((1:ℝ),3),(2,4)], 0 ≤ c.1 ∧ c.1 ≤ c.2 ∧ c.2 ≤ 6 := by
    intro c hcm
    rcases List.mem_cons.mp hcm with rfl | hcm
    · norm_num
    · rcases List.mem_singleton.mp hcm with rfl
      norm_num
  exact ⟨hc, by norm_num,
    (keep_times_partition [((1:ℝ),3),(2,4)] 6 hc (by norm_num)).2.2⟩

end MeasurePartition

end Proofs
